import Mathlib

/-!
Shallow embedding of the CNTKBinaryReader chunk deserializer
(`Source/Readers/CNTKBinaryReader/BinaryChunkDeserializer.h` and its
implementation file).

Machine integers are modelled as `Int` (the value read from disk) and the
C++ `size_t` arithmetic is made explicit with reduction modulo `2 ^ 64`.
Out-of-bounds array accesses and null-pointer dereferences (which are
undefined behavior in the C++ source) are modelled by `Option`, with
`none` standing for the undefined outcome.  Fallible, error-reporting
code (`LogicError` / `RuntimeError`) is modelled with `Except`.
-/

namespace CNTKBinary

/-- `struct DiskOffsetsTable` (BinaryChunkDeserializer.h:18-22): one fixed
width on-disk record: `int64_t offset; int32_t numSequences; int32_t numSamples`,
16 bytes with `#pragma pack(1)`. -/
structure DiskOffsetsTable where
  offset : Int
  numSequences : Int
  numSamples : Int
deriving Repr, DecidableEq

/-- `size_t` value of an `Int` (conversion to a 64-bit unsigned integer,
reduction modulo `2 ^ 64`). -/
def usize (x : Int) : Nat := (x % (2 ^ 64 : Int)).toNat

/-- The loop body of `OffsetsTable::Initialize` (BinaryChunkDeserializer.h:44-49):
`size_t sequencesSeen = 0; for (c = 1; c < m_numBatches; c++) { m_startIndex[c] =
sequencesSeen; sequencesSeen += m_diskOffsetsTable[c].numSequences; }`.
The argument list holds `numSequences` of records `1, 2, ...`; each iteration
first records the accumulator and only then adds the current record's count
(`size_t += int32_t`, modulo `2 ^ 64`). -/
def startIndexLoop : List Int → Nat → List Nat
  | [], _ => []
  | c :: rest, seen => seen :: startIndexLoop rest (usize ((seen : Int) + c))

/-- `class OffsetsTable` (BinaryChunkDeserializer.h:26-56): `m_numBatches`,
the `m_diskOffsetsTable` array of `numBatches + 1` records, and the derived
`m_startIndex` vector of length `numBatches`. -/
structure OffsetsTable where
  numBatches : Nat
  recs : List DiskOffsetsTable
  startIndex : List Nat
deriving Repr, DecidableEq

/-- The `OffsetsTable` constructor together with `OffsetsTable::Initialize`
(BinaryChunkDeserializer.h:29-32, 41-50): `m_startIndex.resize(m_numBatches)`
zero-fills index `0`; the loop then runs over `c ∈ [1, numBatches)` reading
`m_diskOffsetsTable[c].numSequences`. -/
def mkOffsetsTable (numBatches : Nat) (recs : List DiskOffsetsTable) : OffsetsTable :=
  { numBatches := numBatches
    recs := recs
    startIndex :=
      if numBatches = 0 then []
      else 0 :: startIndexLoop (((recs.drop 1).take (numBatches - 1)).map
        (fun r => r.numSequences)) 0 }

/-- `GetOffset` (BinaryChunkDeserializer.h:34); `none` models the undefined
out-of-bounds array read. -/
def OffsetsTable.getOffset (t : OffsetsTable) (i : Nat) : Option Int :=
  (t.recs[i]?).map (fun r => r.offset)

/-- `GetNumSequences` (BinaryChunkDeserializer.h:35). -/
def OffsetsTable.getNumSequences (t : OffsetsTable) (i : Nat) : Option Int :=
  (t.recs[i]?).map (fun r => r.numSequences)

/-- `GetNumSamples` (BinaryChunkDeserializer.h:36). -/
def OffsetsTable.getNumSamples (t : OffsetsTable) (i : Nat) : Option Int :=
  (t.recs[i]?).map (fun r => r.numSamples)

/-- `GetStartIndex` (BinaryChunkDeserializer.h:37). -/
def OffsetsTable.getStartIndex (t : OffsetsTable) (i : Nat) : Option Nat :=
  t.startIndex[i]?

/-- `GetChunkSize` (BinaryChunkDeserializer.h:38):
`m_diskOffsetsTable[index + 1].offset - m_diskOffsetsTable[index].offset`,
an `int64_t` subtraction returned as `size_t`. -/
def OffsetsTable.getChunkSize (t : OffsetsTable) (i : Nat) : Option Nat :=
  match t.recs[i + 1]?, t.recs[i]? with
  | some a, some b => some (usize (a.offset - b.offset))
  | _, _ => none

/-- Per-stream header body, fixed at header-parse time.  Matrix type tag `0`
selects `DenseBinaryDataDeserializer`, tag `1` selects
`SparseBinaryDataDeserializer` (implementation file, lines 124-131). -/
inductive StreamBody
  | dense (elemType : Int) (numCols : Int)
  | sparse (subtype : Int) (elemType : Int) (numCols : Int)
deriving Repr, DecidableEq

/-- One per-stream header region of the file: a length-prefixed name followed
by the 4-byte matrix-type tag and the codec's own fields. -/
structure StreamHeader where
  name : List Nat
  body : StreamBody
deriving Repr, DecidableEq

/-- Modelled from the spec: the byte footprint of one stream header.
`BinaryDataDeserializer.h` (the `DenseBinaryDataDeserializer` /
`SparseBinaryDataDeserializer` constructors) is not part of the provided
sources; per spec sections 4.3/4.4/6 the dense constructor consumes
`[int32 elemType][int32 numCols]` (8 bytes) and the sparse constructor
consumes `[int32 subtype][int32 elemType][int32 numCols]` (12 bytes), after
the 4-byte name length, the name bytes and the 4-byte matrix-type tag. -/
def StreamHeader.byteSize : StreamHeader → Nat
  | ⟨name, .dense _ _⟩ => 4 + name.length + 4 + 8
  | ⟨name, .sparse _ _ _⟩ => 4 + name.length + 4 + 12

/-- Structural model of an input file: `[int64 version][int64 numBatches]
[int32 numInputs]`, the stream headers, the on-disk offsets table region,
then the raw chunk payload bytes running to end of file.  `diskRecords`
is the record list physically present in the table region and `payload`
the bytes after it. -/
structure BinFile where
  version : Int
  numBatches : Int
  streams : List StreamHeader
  diskRecords : List DiskOffsetsTable
  payload : List Nat
deriving Repr, DecidableEq

/-- File position immediately after the header (`m_offsetStart`,
recorded via `_ftelli64` at implementation line 142). -/
def BinFile.headerSize (f : BinFile) : Nat :=
  8 + 8 + 4 + (f.streams.map StreamHeader.byteSize).sum

/-- Total byte size of the file: what `_ftelli64` returns after
`_fseeki64(infile, 0, SEEK_END)` (implementation lines 34-35). -/
def BinFile.fileSize (f : BinFile) : Nat :=
  f.headerSize + 16 * f.diskRecords.length + f.payload.length

/-- Well-formedness of a file in this format: the batch count is
non-negative, the table region holds exactly `numBatches` records, every
record carries an in-range non-negative offset and in-range non-negative
counts (they are byte offsets and element counts), every chunk start lies
inside the payload region, and the file size fits `int64_t`. -/
abbrev DiskOffsetsTable.WF (r : DiskOffsetsTable) : Prop :=
  0 ≤ r.offset ∧ r.offset < 2 ^ 63 ∧
  0 ≤ r.numSequences ∧ r.numSequences < 2 ^ 31 ∧
  0 ≤ r.numSamples ∧ r.numSamples < 2 ^ 31

/-- Well-formedness of a `BinFile`; see `DiskOffsetsTable.WF`. -/
abbrev BinFile.WF (f : BinFile) : Prop :=
  0 ≤ f.numBatches ∧
  f.diskRecords.length = f.numBatches.toNat ∧
  (∀ r ∈ f.diskRecords, r.WF) ∧
  (∀ r ∈ f.diskRecords, r.offset ≤ (f.payload.length : Int)) ∧
  f.fileSize < 2 ^ 63

/-- The error taxonomy of spec section 7.  The only error the provided
implementation actually raises is `FormatVersionMismatch` (via
`LogicError`, implementation lines 85-86) and `UnsupportedEncoding` (via
`RuntimeError`, line 131); the remaining kinds appear in the spec but are
never produced by this code. -/
inductive ReaderError
  | FormatVersionMismatch
  | UnsupportedEncoding
  | NotInitErr
  | OutOfRange
  | TruncatedRead
deriving Repr, DecidableEq

/-- The mutable fields of `BinaryChunkDeserializer` relevant to reading:
`m_numBatches`, `m_offsetStart`, `m_dataStart` and `m_offsetsTable`
(a null `unique_ptr` before `Initialize` has run, modelled `none`). -/
structure DeserializerState where
  numBatches : Int
  offsetStart : Nat
  dataStart : Nat
  offsetsTable : Option OffsetsTable
deriving Repr, DecidableEq

/-- `m_versionNumber = 1` (BinaryChunkDeserializer.h:108). -/
def versionNumber : Int := 1

/-- The synthetic final record written by `ReadOffsetsTable` when reading
through the end of the file (implementation lines 32-38): the byte offset
delivered by `_ftelli64` after seeking to `SEEK_END` — the absolute file
size — with zero counts. -/
def synthRec (f : BinFile) : DiskOffsetsTable :=
  { offset := (f.fileSize : Int), numSequences := 0, numSamples := 0 }

/-- `BinaryChunkDeserializer::ReadOffsetsTable(FILE*, size_t, size_t)`
(implementation lines 17-43): reads `count` records starting at record
index `startOffset`, then one more — synthesized from the file size when
`startOffset + count == m_numBatches`, otherwise the true next on-disk
record — and builds the in-memory `OffsetsTable`. -/
def readOffsetsTable (f : BinFile) (numBatchesField : Int)
    (startOffset count : Nat) : OffsetsTable :=
  let recs := (f.diskRecords.drop startOffset).take count
  let lastRec : DiskOffsetsTable :=
    if ((startOffset + count : Nat) : Int) = numBatchesField then
      synthRec f
    else
      (f.diskRecords[startOffset + count]?).getD ⟨0, 0, 0⟩
  mkOffsetsTable count (recs ++ [lastRec])

/-- `BinaryChunkDeserializer::Initialize` (implementation lines 72-151):
checks the 8-byte version number first (raising `LogicError`, reported in
the spec's taxonomy as `FormatVersionMismatch`, before anything further is
read), then reads `m_numBatches`, `m_numInputs` and the stream headers,
records `m_offsetStart`, computes
`m_dataStart = m_offsetStart + m_numBatches * sizeof(DiskOffsetsTable)`,
and loads the full offsets table (`ReadOffsetsTable(m_file)` =
`ReadOffsetsTable(m_file, 0, m_numBatches)`). -/
def initDeserializer (f : BinFile) : Except ReaderError DeserializerState :=
  if f.version ≠ versionNumber then
    Except.error ReaderError.FormatVersionMismatch
  else
    let offsetStart := f.headerSize
    let dataStart := offsetStart + 16 * f.numBatches.toNat
    Except.ok
      { numBatches := f.numBatches
        offsetStart := offsetStart
        dataStart := dataStart
        offsetsTable := some (readOffsetsTable f f.numBatches 0 f.numBatches.toNat) }

/-- `BinaryChunkDeserializer::ReadChunk` (implementation lines 204-219):
seeks to `m_dataStart + GetOffset(chunkId)` (the payload region starts at
`m_dataStart`, so the read starts `GetOffset(chunkId)` bytes into the
payload), allocates a zero-initialized buffer of `GetChunkSize(chunkId)`
bytes and calls `fread` for that many bytes, IGNORING its return value:
if the file ends early the trailing part of the buffer simply keeps its
zero fill.  `none` models the null/out-of-bounds dereference of
`m_offsetsTable`. -/
def readChunk (f : BinFile) (st : DeserializerState) (chunkId : Nat) :
    Option (List Nat) :=
  st.offsetsTable.bind fun t =>
    (t.getOffset chunkId).bind fun off =>
      (t.getChunkSize chunkId).map fun chunkSize =>
        let avail := (f.payload.drop off.toNat).take chunkSize
        avail ++ List.replicate (chunkSize - avail.length) 0

/-- `BinaryDataChunk` as constructed by `GetChunk` (implementation line
227): the chunk id, the chunk's `startIndex`, its sequence count and the
freshly read byte buffer (the shared codec list is held separately). -/
structure BinaryDataChunk where
  chunkId : Nat
  startIndex : Nat
  numSequences : Int
  buffer : List Nat
deriving Repr, DecidableEq

/-- `BinaryChunkDeserializer::GetChunk` (implementation lines 222-228):
reads the chunk bytes with `ReadChunk` and wraps them together with
`GetStartIndex(chunkId)` and `GetNumSequences(chunkId)`.  Note there is no
`chunkId` bounds check anywhere on this path; for `chunkId ≥ numBatches`
the table accessors read past the end of their arrays (undefined
behavior, modelled `none`). -/
def getChunk (f : BinFile) (st : DeserializerState) (chunkId : Nat) :
    Option BinaryDataChunk :=
  st.offsetsTable.bind fun t =>
    (readChunk f st chunkId).bind fun buf =>
      (t.getStartIndex chunkId).bind fun si =>
        (t.getNumSequences chunkId).map fun ns =>
          ⟨chunkId, si, ns, buf⟩

/-- `ChunkDescription` as aggregate-initialized at implementation lines
161-166: `{ c, m_offsetsTable->GetNumSamples(c), m_offsetsTable->GetNumSequences(c) }`. -/
structure ChunkDescription where
  id : Nat
  numberOfSamples : Int
  numberOfSequences : Int
deriving Repr, DecidableEq

/-- The `for` loop of `GetChunkDescriptions` (implementation lines
159-167): for `c` from the current index while `remaining` iterations are
left, push `{c, GetNumSamples(c), GetNumSequences(c)}` onto the result. -/
def chunkDescLoop (t : OffsetsTable) :
    Nat → Nat → List ChunkDescription → Option (List ChunkDescription)
  | _, 0, acc => some acc
  | c, remaining + 1, acc =>
    match t.getNumSamples c, t.getNumSequences c with
    | some ns, some nq => chunkDescLoop t (c + 1) remaining (acc ++ [⟨c, ns, nq⟩])
    | _, _ => none

/-- `BinaryChunkDeserializer::GetChunkDescriptions` (implementation lines
153-170): `assert(m_offsetsTable)` (modelled: `none` when the table was
never loaded), then one description per chunk `0 .. m_numBatches-1`, read
purely from the in-memory table. -/
def getChunkDescriptions (st : DeserializerState) : Option (List ChunkDescription) :=
  st.offsetsTable.bind fun t => chunkDescLoop t 0 st.numBatches.toNat []

/-- `SequenceDescription` as aggregate-initialized at implementation lines
193-200: `{ startId + c, numSamples, chunkId, true, { startId + c, 0 } }`. -/
structure SequenceDescription where
  id : Nat
  numberOfSamples : Nat
  chunkId : Nat
  isValid : Bool
  key : Nat × Nat
deriving Repr, DecidableEq

/-- The `for` loop of `GetSequencesForChunk` (implementation lines
183-201).  `getSeq` models `chunk->GetSequence(globalId, temp)` followed by
reading `temp[i]->m_numberOfSamples` for every stream `i`.  Modelled from
the spec: `BinaryDataChunk::GetSequence` (BinaryDataChunk.h/.cpp is not
part of the provided sources) decodes the chunk and fills `temp` with one
sequence-data entry per stream, so `getSeq g` is the list of per-stream
decoded sample counts of the sequence with global id `g` (spec section
4.5 and 3).  `numSamples` is the running `max` over that list starting
from `0` (lines 187-191), and each iteration appends one description. -/
def seqLoop (getSeq : Nat → List Nat) (chunkId startId : Nat) :
    Nat → Nat → List SequenceDescription → List SequenceDescription
  | _, 0, acc => acc
  | c, remaining + 1, acc =>
    let numSamples := (getSeq (startId + c)).foldl max 0
    seqLoop getSeq chunkId startId (c + 1) remaining
      (acc ++ [⟨startId + c, numSamples, chunkId, true, (startId + c, 0)⟩])

/-- `BinaryChunkDeserializer::GetSequencesForChunk` (implementation lines
172-202): reserves `GetNumSequences(chunkId)` slots in the CALLER-SUPPLIED
result vector (without clearing it), materializes the chunk via
`GetChunk`, then appends one `SequenceDescription` per local sequence
index `c ∈ [0, GetNumSequences(chunkId))`.  The loop bound is the `int32`
count converted to a `Nat` (non-negative in any well-formed file). -/
def getSequencesForChunk (f : BinFile) (st : DeserializerState)
    (getSeq : Nat → List Nat) (chunkId : Nat)
    (result : List SequenceDescription) : Option (List SequenceDescription) :=
  st.offsetsTable.bind fun t =>
    (t.getNumSequences chunkId).bind fun numSeq =>
      (getChunk f st chunkId).bind fun _chunk =>
        (t.getStartIndex chunkId).map fun startId =>
          seqLoop getSeq chunkId startId 0 numSeq.toNat result


/-!  Concrete files used by the counterexample and witness theorems. -/

/-- A well-formed two-chunk file: version 1, one dense stream with a
one-byte name (header size 37, so `dataStart = 37 + 2*16 = 69`), on-disk
offsets `0` and `5`, sequence counts `2` and `3`, sample counts `4` and
`6`, and an 8-byte payload (file size 77). -/
def exampleFile : BinFile :=
  { version := 1
    numBatches := 2
    streams := [⟨[102], StreamBody.dense 0 3⟩]
    diskRecords := [⟨0, 2, 4⟩, ⟨5, 3, 6⟩]
    payload := [1, 2, 3, 4, 5, 6, 7, 8] }

/-- The offsets table `Initialize` builds for `exampleFile`. -/
def exampleTable : OffsetsTable :=
  mkOffsetsTable 2 [⟨0, 2, 4⟩, ⟨5, 3, 6⟩, ⟨77, 0, 0⟩]

/-- The deserializer state `Initialize` produces for `exampleFile`. -/
def exampleState : DeserializerState := ⟨2, 37, 69, some exampleTable⟩

/-- A truncated two-chunk file: the table promises chunk 0 the byte range
`[0, 5)` of the payload, but only 3 payload bytes exist. -/
def truncFile : BinFile :=
  { version := 1
    numBatches := 2
    streams := [⟨[102], StreamBody.dense 0 3⟩]
    diskRecords := [⟨0, 1, 1⟩, ⟨5, 1, 1⟩]
    payload := [9, 9, 9] }

/-- The offsets table loaded from `truncFile` (file size 72). -/
def truncTable : OffsetsTable :=
  mkOffsetsTable 2 [⟨0, 1, 1⟩, ⟨5, 1, 1⟩, ⟨72, 0, 0⟩]

/-- The deserializer state `Initialize` produces for `truncFile`. -/
def truncState : DeserializerState := ⟨2, 37, 69, some truncTable⟩

/-- `exampleFile` with its first 8 bytes encoding version 2. -/
def version2File : BinFile := { exampleFile with version := 2 }

/-- The state left by the filename constructor (implementation lines
55-64) before `Initialize` has run: null offsets table. -/
def uninitState : DeserializerState := ⟨0, 0, 0, none⟩

/-- Per-stream decoded sample counts used in witnesses: every sequence
decodes to two streams with 2 and 1 samples. -/
def exampleGetSeq : Nat → List Nat := fun _ => [2, 1]

/-- Proof helper: the description `GetChunkDescriptions` pushes for chunk
`i` (total function; out-of-range indices never arise in its uses). -/
def descAt (t : OffsetsTable) (i : Nat) : ChunkDescription :=
  match t.recs[i]? with
  | some r => ⟨i, r.numSamples, r.numSequences⟩
  | none => ⟨i, 0, 0⟩

/-- Proof helper: the description `GetSequencesForChunk` pushes for local
sequence index `i`. -/
def seqEntry (getSeq : Nat → List Nat) (chunkId startId i : Nat) : SequenceDescription :=
  ⟨startId + i, (getSeq (startId + i)).foldl max 0, chunkId, true, (startId + i, 0)⟩

/-!  Helper lemmas. -/

theorem startIndexLoop_length (cs : List Int) (seen : Nat) :
    (startIndexLoop cs seen).length = cs.length := by
  induction cs generalizing seen with
  | nil => simp [startIndexLoop]
  | cons c rest ih => simp [startIndexLoop, ih]

theorem chain_le_cons {a b : Nat} {l : List Nat} (hba : b ≤ a)
    (h : List.Chain' (· ≤ ·) (a :: l)) : List.Chain' (· ≤ ·) (b :: l) := by
  cases l with
  | nil => simp
  | cons x xs =>
    rw [List.chain'_cons] at h ⊢
    exact ⟨le_trans hba h.1, h.2⟩

theorem startIndexLoop_chain (cs : List Int) (seen : Nat)
    (hpos : ∀ c ∈ cs, 0 ≤ c) (hbound : (seen : Int) + cs.sum < 2 ^ 64) :
    List.Chain' (· ≤ ·) (seen :: startIndexLoop cs seen) := by
  induction cs generalizing seen with
  | nil => simp [startIndexLoop]
  | cons c rest ih =>
    have hc : 0 ≤ c := hpos c (List.mem_cons_self c rest)
    have hrest : 0 ≤ rest.sum :=
      List.sum_nonneg (fun x hx => hpos x (List.mem_cons_of_mem c hx))
    have hsum : (c :: rest).sum = c + rest.sum := by simp
    rw [hsum] at hbound
    have husize : usize ((seen : Int) + c) = seen + c.toNat := by
      unfold usize
      rw [Int.emod_eq_of_lt (by omega) (by omega)]
      omega
    rw [startIndexLoop, List.chain'_cons]
    refine ⟨Nat.le_refl seen, ?_⟩
    have hpos2 : ∀ x ∈ rest, 0 ≤ x := fun x hx => hpos x (List.mem_cons_of_mem c hx)
    have hbound2 : ((usize ((seen : Int) + c) : Nat) : Int) + rest.sum < 2 ^ 64 := by
      rw [husize]; push_cast; omega
    exact chain_le_cons (by rw [husize]; exact Nat.le_add_right _ _)
      (ih _ hpos2 hbound2)

theorem loaded_table (f : BinFile) (hwf : f.WF) (hv : f.version = versionNumber) :
    initDeserializer f = Except.ok
      { numBatches := f.numBatches
        offsetStart := f.headerSize
        dataStart := f.headerSize + 16 * f.numBatches.toNat
        offsetsTable :=
          some (mkOffsetsTable f.numBatches.toNat (f.diskRecords ++ [synthRec f])) } := by
  obtain ⟨hnb, hlen, -, -, -⟩ := hwf
  simp only [initDeserializer, readOffsetsTable]
  rw [if_neg (fun h => h hv)]
  have hcond : ((0 + f.numBatches.toNat : Nat) : Int) = f.numBatches := by omega
  rw [if_pos hcond, List.drop_zero, ← hlen, List.take_length]

theorem init_state (f : BinFile) (st : DeserializerState) (hwf : f.WF)
    (hinit : initDeserializer f = Except.ok st) :
    st = { numBatches := f.numBatches
           offsetStart := f.headerSize
           dataStart := f.headerSize + 16 * f.numBatches.toNat
           offsetsTable :=
             some (mkOffsetsTable f.numBatches.toNat (f.diskRecords ++ [synthRec f])) } := by
  by_cases hv : f.version = versionNumber
  · rw [loaded_table f hwf hv] at hinit
    injection hinit with h
    exact h.symm
  · unfold initDeserializer at hinit
    rw [if_pos hv] at hinit
    simp at hinit

theorem mk_startIndex_cons (r : DiskOffsetsTable) (rs : List DiskOffsetsTable)
    (s : DiskOffsetsTable) :
    (mkOffsetsTable (r :: rs).length ((r :: rs) ++ [s])).startIndex
      = 0 :: startIndexLoop (rs.map (fun x => x.numSequences)) 0 := by
  unfold mkOffsetsTable
  rw [if_neg (by simp)]
  have h1 : (((r :: rs) ++ [s]).drop 1).take ((r :: rs).length - 1) = rs := by
    simp only [List.cons_append, List.drop_succ_cons, List.drop_zero, List.length_cons,
      Nat.add_sub_cancel]
    exact List.take_left rs [s]
  rw [h1]

theorem loaded_startIndex_length (numBatches : Nat) (rs : List DiskOffsetsTable)
    (s : DiskOffsetsTable) (hlen : rs.length = numBatches) :
    (mkOffsetsTable numBatches (rs ++ [s])).startIndex.length = numBatches := by
  unfold mkOffsetsTable
  by_cases h : numBatches = 0
  · rw [if_pos h, h]
    rfl
  · rw [if_neg h]
    simp only [List.length_cons, startIndexLoop_length, List.length_map, List.length_take,
      List.length_drop, List.length_append, List.length_cons]
    simp [hlen]
    omega

theorem range_succ_map_shift {α : Type} (g : Nat → α) (c n : Nat) :
    (List.range (n + 1)).map (fun j => g (c + j))
      = g c :: (List.range n).map (fun j => g (c + 1 + j)) := by
  rw [List.range_succ_eq_map, List.map_cons, List.map_map]
  refine congrArg₂ List.cons rfl ?_
  apply List.map_congr_left
  intro a _
  simp only [Function.comp_apply]
  congr 1
  omega

theorem chunkDescLoop_spec (t : OffsetsTable) :
    ∀ (rem c : Nat) (acc : List ChunkDescription), c + rem ≤ t.recs.length →
    chunkDescLoop t c rem acc
      = some (acc ++ (List.range rem).map (fun j => descAt t (c + j))) := by
  intro rem
  induction rem with
  | zero => intro c acc _; simp [chunkDescLoop]
  | succ n ih =>
    intro c acc h
    have hc : c < t.recs.length := by omega
    have hr : t.recs[c]? = some t.recs[c] := List.getElem?_eq_getElem hc
    rw [show chunkDescLoop t c (n + 1) acc
        = chunkDescLoop t (c + 1) n
            (acc ++ [⟨c, t.recs[c].numSamples, t.recs[c].numSequences⟩])
      from by simp [chunkDescLoop, OffsetsTable.getNumSamples, OffsetsTable.getNumSequences, hr]]
    rw [ih (c + 1) _ (by omega), range_succ_map_shift (fun j => descAt t j) c n]
    rw [List.append_assoc, List.singleton_append]
    simp [descAt, hr]

theorem seqLoop_spec (getSeq : Nat → List Nat) (chunkId startId : Nat) :
    ∀ (rem c : Nat) (acc : List SequenceDescription),
    seqLoop getSeq chunkId startId c rem acc
      = acc ++ (List.range rem).map (fun j => seqEntry getSeq chunkId startId (c + j)) := by
  intro rem
  induction rem with
  | zero => intro c acc; simp [seqLoop]
  | succ n ih =>
    intro c acc
    rw [show seqLoop getSeq chunkId startId c (n + 1) acc
        = seqLoop getSeq chunkId startId (c + 1) n
            (acc ++ [seqEntry getSeq chunkId startId c])
      from by simp [seqLoop, seqEntry]]
    rw [ih, range_succ_map_shift (fun j => seqEntry getSeq chunkId startId j) c n]
    rw [List.append_assoc, List.singleton_append]

/-!  Claim theorems. -/

/-- Claim C1 (code bug).  The claim states that the derived start indices
satisfy `startIndex[0] = 0` and `startIndex[i] = startIndex[i-1] +
numSequences[i-1]`, i.e. `startIndex[i] = Σ numSequences[0..i-1]`.  In
the code (`OffsetsTable::Initialize`, BinaryChunkDeserializer.h:41-50)
the loop assigns `m_startIndex[c] = sequencesSeen` BEFORE accumulating
record `c`'s own count and never reads record `0`, so `startIndex[1]` is
always `0` and `numSequences[0]` is never counted.  On a loaded table
with `numSequences = [2, 3]` the code yields `startIndex = [0, 0]`,
violating `startIndex[1] = startIndex[0] + numSequences[0] = 2`. -/
theorem c1_startIndex_not_cumulative :
    initDeserializer exampleFile = Except.ok exampleState ∧
    exampleState.offsetsTable = some exampleTable ∧
    exampleTable.getStartIndex 0 = some 0 ∧
    exampleTable.getNumSequences 0 = some 2 ∧
    exampleTable.getStartIndex 1 = some 0 ∧
    (0 : Nat) ≠ 0 + 2 :=
  ⟨rfl, rfl, rfl, rfl, rfl, by decide⟩

/-- Claim C2 (code bug).  The claim states that `GetChunk(chunkId)`
validates `chunkId < N` and fails with `OutOfRange` for `chunkId ≥ N`.
`BinaryChunkDeserializer::GetChunk` (implementation lines 222-228)
performs no bounds check at all: for `chunkId = N` it reads
`m_diskOffsetsTable[N + 1]` (in `GetChunkSize`) and `m_startIndex[N]`,
both past the end of their arrays — undefined behavior, modelled `none`
— and no `OutOfRange` error is produced on any path of `GetChunk`.
Demonstrated on the initialized 2-chunk `exampleFile` at
`chunkId = 2 = N` and `chunkId = 3 > N`. -/
theorem c2_getChunk_out_of_range_unchecked :
    initDeserializer exampleFile = Except.ok exampleState ∧
    exampleFile.numBatches = 2 ∧
    getChunk exampleFile exampleState 2 = none ∧
    getChunk exampleFile exampleState 3 = none :=
  ⟨rfl, rfl, rfl, rfl⟩

/-- Claim C3 (code bug).  The claim states that when the file holds fewer
than `GetChunkSize(chunkId)` bytes at the chunk's start, `GetChunk` fails
with `TruncatedRead` rather than returning a partially filled buffer.
`BinaryChunkDeserializer::ReadChunk` (implementation lines 204-219)
ignores `fread`'s return value entirely: on `truncFile`, whose offsets
table promises chunk 0 five bytes while only three payload bytes exist,
`ReadChunk`/`GetChunk` succeed and return the 5-byte buffer
`[9, 9, 9, 0, 0]` — the three bytes actually read followed by the
buffer's untouched zero fill — with no error of any kind. -/
theorem c3_short_read_returns_padded_buffer :
    initDeserializer truncFile = Except.ok truncState ∧
    truncTable.getChunkSize 0 = some 5 ∧
    truncFile.payload.length = 3 ∧
    readChunk truncFile truncState 0 = some [9, 9, 9, 0, 0] ∧
    getChunk truncFile truncState 0 = some ⟨0, 0, 1, [9, 9, 9, 0, 0]⟩ :=
  ⟨rfl, rfl, rfl, rfl, rfl⟩

/-- Claim C4 (code bug).  The claim states that the synthesized final
offsets record equals the distance data start → end of data, so that
`GetChunkSize(N-1)` is the last chunk's payload size and `GetChunk(N-1)`
reads exactly its bytes.  `ReadOffsetsTable` (implementation lines 32-38)
stores the ABSOLUTE file size (`_ftelli64` after `SEEK_END`) in the
synthetic record, although every other offset is used relative to
`m_dataStart` (`GetChunk` seeks to `m_dataStart + GetOffset(chunkId)`).
On `exampleFile` (data start 69, file size 77) the last chunk starts at
payload offset 5 and truly holds 3 bytes, but `GetChunkSize(1) = 77 - 5
= 72`, and `ReadChunk(1)` therefore reads past the end of the file,
returning the 3 real bytes padded with 69 zeros. -/
theorem c4_last_chunk_size_overshoots :
    initDeserializer exampleFile = Except.ok exampleState ∧
    exampleFile.payload.length - 5 = 3 ∧
    exampleTable.getOffset 1 = some 5 ∧
    exampleTable.getChunkSize 1 = some 72 ∧
    (72 : Nat) ≠ 3 ∧
    readChunk exampleFile exampleState 1
      = some (exampleFile.payload.drop 5 ++ List.replicate 69 0) :=
  ⟨rfl, rfl, rfl, rfl, by decide, rfl⟩

/-- Claim C5 (confirmed).  For every input file whose first 8 bytes
encode a version different from the single supported version
`m_versionNumber = 1`, `Initialize` raises the version-mismatch error
(`LogicError`, implementation lines 82-86) before reading anything
further — the check is the first conditional, ahead of every other
`fread` — and no initialized state is ever produced, so the store stays
non-operational. -/
theorem c5_version_mismatch (f : BinFile) (h : f.version ≠ versionNumber) :
    initDeserializer f = Except.error ReaderError.FormatVersionMismatch := by
  unfold initDeserializer
  rw [if_pos h]

/-- Witness for C5: a file whose first 8 bytes encode version 2. -/
theorem c5_version_mismatch_witness :
    initDeserializer version2File = Except.error ReaderError.FormatVersionMismatch :=
  c5_version_mismatch version2File (by decide)

/-- Claim C6 (code bug).  The claim states that `GetChunkDescriptions`,
`GetSequencesForChunk` and `GetChunk` fail with `NotInitialized` when
invoked before `Initialize`.  In the code, `GetChunkDescriptions` only
has a debug-build `assert(m_offsetsTable)` (implementation line 155) and
the other two have no check at all: all three dereference the null
`m_offsetsTable` pointer — undefined behavior, modelled `none` — and no
`NotInitialized` error is produced on any path. -/
theorem c6_uninit_ops_no_error (f : BinFile) (st : DeserializerState)
    (getSeq : Nat → List Nat) (chunkId : Nat) (result : List SequenceDescription)
    (h : st.offsetsTable = none) :
    getChunkDescriptions st = none ∧
    getChunk f st chunkId = none ∧
    getSequencesForChunk f st getSeq chunkId result = none := by
  refine ⟨?_, ?_, ?_⟩ <;>
    simp [getChunkDescriptions, getChunk, getSequencesForChunk, h]

/-- Witness for C6: the state left by the filename constructor before
`Initialize` has run. -/
theorem c6_uninit_ops_witness :
    getChunkDescriptions uninitState = none ∧
    getChunk exampleFile uninitState 0 = none ∧
    getSequencesForChunk exampleFile uninitState exampleGetSeq 0 [] = none :=
  c6_uninit_ops_no_error exampleFile uninitState exampleGetSeq 0 [] rfl

theorem loaded_facts (f : BinFile) (st : DeserializerState) (hwf : f.WF)
    (hinit : initDeserializer f = Except.ok st) :
    st.numBatches = f.numBatches ∧
    st.offsetsTable
      = some (mkOffsetsTable f.numBatches.toNat (f.diskRecords ++ [synthRec f])) := by
  rw [init_state f st hwf hinit]
  exact ⟨rfl, rfl⟩

theorem loaded_get_lt (f : BinFile) {i : Nat}
    (hlen : f.diskRecords.length = f.numBatches.toNat) (hi : i < f.numBatches.toNat) :
    (mkOffsetsTable f.numBatches.toNat (f.diskRecords ++ [synthRec f])).recs[i]?
      = f.diskRecords[i]? := by
  show (f.diskRecords ++ [synthRec f])[i]? = f.diskRecords[i]?
  exact List.getElem?_append_left (by omega)

theorem loaded_get_last (f : BinFile)
    (hlen : f.diskRecords.length = f.numBatches.toNat) :
    (mkOffsetsTable f.numBatches.toNat (f.diskRecords ++ [synthRec f])).recs[f.numBatches.toNat]?
      = some (synthRec f) := by
  show (f.diskRecords ++ [synthRec f])[f.numBatches.toNat]? = _
  rw [← hlen]
  exact List.getElem?_concat_length _ _

/-- Claim C7 (confirmed).  On an initialized store over an `N`-chunk
well-formed file, `GetChunkDescriptions` returns exactly `N`
descriptions in chunk-id order: entry `i` is
`(chunkId = i, sampleCount = numSamples[i], sequenceCount =
numSequences[i])`, both counts exactly the on-disk record's fields,
read purely from the in-memory table (the function takes no file
argument and returns no state — no I/O and no state change by
construction). -/
theorem c7_chunk_descriptions (f : BinFile) (st : DeserializerState)
    (hwf : f.WF) (hinit : initDeserializer f = Except.ok st) :
    ∃ l, getChunkDescriptions st = some l ∧
      l.length = f.numBatches.toNat ∧
      ∀ i, i < f.numBatches.toNat →
        ∃ r, f.diskRecords[i]? = some r ∧
          l[i]? = some ⟨i, r.numSamples, r.numSequences⟩ := by
  obtain ⟨hNB, hTable⟩ := loaded_facts f st hwf hinit
  have hlen : f.diskRecords.length = f.numBatches.toNat := hwf.2.1
  set T := mkOffsetsTable f.numBatches.toNat (f.diskRecords ++ [synthRec f]) with hT
  have hrlen : T.recs.length = f.numBatches.toNat + 1 := by
    show (f.diskRecords ++ [synthRec f]).length = _
    simp [hlen]
  have hmain : getChunkDescriptions st
      = some ((List.range f.numBatches.toNat).map (fun j => descAt T (0 + j))) := by
    unfold getChunkDescriptions
    simp only [hTable, Option.some_bind, hNB]
    rw [chunkDescLoop_spec T f.numBatches.toNat 0 [] (by omega), List.nil_append]
  refine ⟨_, hmain, by simp, ?_⟩
  intro i hi
  have hil : i < f.diskRecords.length := by omega
  have hgi : f.diskRecords[i]? = some f.diskRecords[i] :=
    List.getElem?_eq_getElem hil
  refine ⟨_, hgi, ?_⟩
  rw [List.getElem?_map, List.getElem?_range hi, Option.map_some']
  have hre : T.recs[i]? = some f.diskRecords[i] := by
    rw [loaded_get_lt f hlen hi, hgi]
  simp [descAt, Nat.zero_add, hre]

/-- Witness for C7 on the concrete two-chunk `exampleFile`. -/
theorem c7_chunk_descriptions_witness :
    ∃ l, getChunkDescriptions exampleState = some l ∧
      l.length = exampleFile.numBatches.toNat ∧
      ∀ i, i < exampleFile.numBatches.toNat →
        ∃ r, exampleFile.diskRecords[i]? = some r ∧
          l[i]? = some ⟨i, r.numSamples, r.numSequences⟩ :=
  c7_chunk_descriptions exampleFile exampleState (by decide) rfl

/-- Claim C8 (confirmed; the chunk decode is spec-modelled).  For every
valid `chunkId` of an initialized store, `GetSequencesForChunk`
materializes the chunk via `GetChunk` and, for each local sequence index
`c ∈ [0, numSequences[chunkId])` in order, emits a description with
`globalId = GetStartIndex(chunkId) + c`, sample count the maximum over
all streams of the sequence's decoded per-stream sample counts (`getSeq`
models `chunk->GetSequence`; the running `max` starts at `0`), the
`chunkId`, `validId = true` and provenance pair `(globalId, 0)`. -/
theorem c8_sequences_for_chunk (f : BinFile) (st : DeserializerState)
    (t : OffsetsTable) (getSeq : Nat → List Nat) (chunkId : Nat)
    (hwf : f.WF) (hinit : initDeserializer f = Except.ok st)
    (ht : st.offsetsTable = some t) (hid : chunkId < f.numBatches.toNat) :
    ∃ numSeq startId l,
      t.getNumSequences chunkId = some numSeq ∧
      t.getStartIndex chunkId = some startId ∧
      getSequencesForChunk f st getSeq chunkId [] = some l ∧
      l.length = numSeq.toNat ∧
      ∀ c, c < numSeq.toNat →
        l[c]? = some ⟨startId + c, (getSeq (startId + c)).foldl max 0,
          chunkId, true, (startId + c, 0)⟩ := by
  obtain ⟨hNB, hTable⟩ := loaded_facts f st hwf hinit
  have hlen : f.diskRecords.length = f.numBatches.toNat := hwf.2.1
  have htt : t = mkOffsetsTable f.numBatches.toNat (f.diskRecords ++ [synthRec f]) := by
    rw [hTable] at ht
    exact (Option.some.inj ht.symm)
  subst htt
  set T := mkOffsetsTable f.numBatches.toNat (f.diskRecords ++ [synthRec f]) with hT
  have hil : chunkId < f.diskRecords.length := by omega
  have hrlen : T.recs.length = f.numBatches.toNat + 1 := by
    show (f.diskRecords ++ [synthRec f]).length = _
    simp [hlen]
  have hgi : f.diskRecords[chunkId]? = some f.diskRecords[chunkId] :=
    List.getElem?_eq_getElem hil
  have hre : T.recs[chunkId]? = some f.diskRecords[chunkId] := by
    rw [loaded_get_lt f hlen hid, hgi]
  have hns : T.getNumSequences chunkId = some f.diskRecords[chunkId].numSequences := by
    unfold OffsetsTable.getNumSequences
    rw [hre]
    rfl
  have hslen : T.startIndex.length = f.numBatches.toNat :=
    loaded_startIndex_length f.numBatches.toNat f.diskRecords (synthRec f) hlen
  have hsil : chunkId < T.startIndex.length := by omega
  have hsi : T.getStartIndex chunkId = some (T.startIndex.get ⟨chunkId, hsil⟩) := by
    unfold OffsetsTable.getStartIndex
    exact List.getElem?_eq_getElem hsil
  have hoff : T.getOffset chunkId = some f.diskRecords[chunkId].offset := by
    unfold OffsetsTable.getOffset
    rw [hre]
    rfl
  have hnl : chunkId + 1 < T.recs.length := by omega
  have hnext : T.recs[chunkId + 1]? = some (T.recs.get ⟨chunkId + 1, hnl⟩) :=
    List.getElem?_eq_getElem hnl
  have hsize : T.getChunkSize chunkId
      = some (usize ((T.recs.get ⟨chunkId + 1, hnl⟩).offset - f.diskRecords[chunkId].offset)) := by
    unfold OffsetsTable.getChunkSize
    rw [hnext, hre]
  obtain ⟨buf, hrcEq⟩ : ∃ buf, readChunk f st chunkId = some buf := by
    unfold readChunk
    simp only [hTable, Option.some_bind, hoff, hsize, Option.map_some']
    exact ⟨_, rfl⟩
  have hgc : getChunk f st chunkId
      = some ⟨chunkId, T.startIndex.get ⟨chunkId, hsil⟩,
          f.diskRecords[chunkId].numSequences, buf⟩ := by
    unfold getChunk
    simp only [hTable, Option.some_bind, hrcEq, hsi, hns, Option.map_some']
  have hmain : getSequencesForChunk f st getSeq chunkId []
      = some ((List.range f.diskRecords[chunkId].numSequences.toNat).map
          (fun j => seqEntry getSeq chunkId (T.startIndex.get ⟨chunkId, hsil⟩) (0 + j))) := by
    unfold getSequencesForChunk
    simp only [hTable, Option.some_bind, hns, hgc, hsi, Option.map_some']
    rw [seqLoop_spec, List.nil_append]
  refine ⟨_, _, _, hns, hsi, hmain, by simp, ?_⟩
  intro c hc
  rw [List.getElem?_map, List.getElem?_range hc, Option.map_some']
  simp [seqEntry, Nat.zero_add]

/-- Witness for C8 on the concrete `exampleFile`, chunk 0, with every
sequence decoding to two streams of 2 and 1 samples. -/
theorem c8_sequences_for_chunk_witness :
    ∃ numSeq startId l,
      exampleTable.getNumSequences 0 = some numSeq ∧
      exampleTable.getStartIndex 0 = some startId ∧
      getSequencesForChunk exampleFile exampleState exampleGetSeq 0 [] = some l ∧
      l.length = numSeq.toNat ∧
      ∀ c, c < numSeq.toNat →
        l[c]? = some ⟨startId + c, (exampleGetSeq (startId + c)).foldl max 0,
          0, true, (startId + c, 0)⟩ :=
  c8_sequences_for_chunk exampleFile exampleState exampleTable exampleGetSeq 0
    (by decide) rfl rfl (by decide)

/-- Claim C10 (confirmed).  `GetSequencesForChunk` never clears the
caller-supplied result vector: whatever list is passed in reappears
unchanged as a prefix of the output, followed by exactly the chunk's
`numSequences` freshly generated descriptions (the same tail it would
produce for an empty input vector). -/
theorem c10_result_appended (f : BinFile) (st : DeserializerState)
    (getSeq : Nat → List Nat) (chunkId : Nat) (result : List SequenceDescription)
    (hwf : f.WF) (hinit : initDeserializer f = Except.ok st)
    (hid : chunkId < f.numBatches.toNat) :
    ∃ tail,
      getSequencesForChunk f st getSeq chunkId result = some (result ++ tail) ∧
      getSequencesForChunk f st getSeq chunkId [] = some tail ∧
      ∃ t numSeq, st.offsetsTable = some t ∧
        t.getNumSequences chunkId = some numSeq ∧
        tail.length = numSeq.toNat := by
  obtain ⟨hNB, hTable⟩ := loaded_facts f st hwf hinit
  have hlen : f.diskRecords.length = f.numBatches.toNat := hwf.2.1
  set T := mkOffsetsTable f.numBatches.toNat (f.diskRecords ++ [synthRec f]) with hT
  have hil : chunkId < f.diskRecords.length := by omega
  have hrlen : T.recs.length = f.numBatches.toNat + 1 := by
    show (f.diskRecords ++ [synthRec f]).length = _
    simp [hlen]
  have hgi : f.diskRecords[chunkId]? = some f.diskRecords[chunkId] :=
    List.getElem?_eq_getElem hil
  have hre : T.recs[chunkId]? = some f.diskRecords[chunkId] := by
    rw [loaded_get_lt f hlen hid, hgi]
  have hns : T.getNumSequences chunkId = some f.diskRecords[chunkId].numSequences := by
    unfold OffsetsTable.getNumSequences
    rw [hre]
    rfl
  have hslen : T.startIndex.length = f.numBatches.toNat :=
    loaded_startIndex_length f.numBatches.toNat f.diskRecords (synthRec f) hlen
  have hsil : chunkId < T.startIndex.length := by omega
  have hsi : T.getStartIndex chunkId = some (T.startIndex.get ⟨chunkId, hsil⟩) := by
    unfold OffsetsTable.getStartIndex
    exact List.getElem?_eq_getElem hsil
  have hoff : T.getOffset chunkId = some f.diskRecords[chunkId].offset := by
    unfold OffsetsTable.getOffset
    rw [hre]
    rfl
  have hnl : chunkId + 1 < T.recs.length := by omega
  have hnext : T.recs[chunkId + 1]? = some (T.recs.get ⟨chunkId + 1, hnl⟩) :=
    List.getElem?_eq_getElem hnl
  have hsize : T.getChunkSize chunkId
      = some (usize ((T.recs.get ⟨chunkId + 1, hnl⟩).offset - f.diskRecords[chunkId].offset)) := by
    unfold OffsetsTable.getChunkSize
    rw [hnext, hre]
  obtain ⟨buf, hrcEq⟩ : ∃ buf, readChunk f st chunkId = some buf := by
    unfold readChunk
    simp only [hTable, Option.some_bind, hoff, hsize, Option.map_some']
    exact ⟨_, rfl⟩
  have hgc : getChunk f st chunkId
      = some ⟨chunkId, T.startIndex.get ⟨chunkId, hsil⟩,
          f.diskRecords[chunkId].numSequences, buf⟩ := by
    unfold getChunk
    simp only [hTable, Option.some_bind, hrcEq, hsi, hns, Option.map_some']
  have hrun : ∀ acc : List SequenceDescription,
      getSequencesForChunk f st getSeq chunkId acc
        = some (acc ++ (List.range f.diskRecords[chunkId].numSequences.toNat).map
            (fun j => seqEntry getSeq chunkId (T.startIndex.get ⟨chunkId, hsil⟩) (0 + j))) := by
    intro acc
    unfold getSequencesForChunk
    simp only [hTable, Option.some_bind, hns, hgc, hsi, Option.map_some']
    rw [seqLoop_spec]
  refine ⟨_, hrun result, ?_, T, _, hTable, hns, by simp⟩
  rw [hrun [], List.nil_append]

/-- Witness for C10 on the concrete `exampleFile`, chunk 0, with a
non-empty pre-existing result vector. -/
theorem c10_result_appended_witness :
    ∃ tail,
      getSequencesForChunk exampleFile exampleState exampleGetSeq 0
          [⟨99, 9, 9, false, (9, 9)⟩] = some ([⟨99, 9, 9, false, (9, 9)⟩] ++ tail) ∧
      getSequencesForChunk exampleFile exampleState exampleGetSeq 0 [] = some tail ∧
      ∃ t numSeq, exampleState.offsetsTable = some t ∧
        t.getNumSequences 0 = some numSeq ∧
        tail.length = numSeq.toNat :=
  c10_result_appended exampleFile exampleState exampleGetSeq 0
    [⟨99, 9, 9, false, (9, 9)⟩] (by decide) rfl (by decide)

/-- Claim C9 (confirmed).  For a table loaded from a well-formed file
whose on-disk offset records are written in increasing order (and whose
total sequence count does not overflow `size_t`), every loaded index `i`
satisfies `GetOffset(i) ≤ GetOffset(i+1)` — the final comparison holding
against the synthesized end record — and `GetChunkSize(i)` is the exact
non-negative difference of the two offsets (the `int64_t` subtraction
never wraps in the `size_t` conversion); moreover the derived
`startIndex` vector is monotonically non-decreasing.  The table is built
once by `Initialize` and no operation of the embedding returns a
modified table, so the invariant is preserved thereafter by
construction. -/
theorem c9_offsets_invariants (f : BinFile) (st : DeserializerState) (t : OffsetsTable)
    (hwf : f.WF)
    (hmono : List.Chain' (fun r s => r.offset ≤ s.offset) f.diskRecords)
    (hsum : (f.diskRecords.map (fun r => r.numSequences)).sum < 2 ^ 64)
    (hinit : initDeserializer f = Except.ok st)
    (ht : st.offsetsTable = some t) :
    (∀ i, i < f.numBatches.toNat → ∃ a b : Int,
        t.getOffset i = some a ∧ t.getOffset (i + 1) = some b ∧ a ≤ b ∧
        t.getChunkSize i = some ((b - a).toNat)) ∧
    List.Chain' (· ≤ ·) t.startIndex := by
  obtain ⟨hNB, hTable⟩ := loaded_facts f st hwf hinit
  have hlen : f.diskRecords.length = f.numBatches.toNat := hwf.2.1
  have hWFr : ∀ r ∈ f.diskRecords, r.WF := hwf.2.2.1
  have hOffPay : ∀ r ∈ f.diskRecords, r.offset ≤ (f.payload.length : Int) := hwf.2.2.2.1
  have hFS : f.fileSize < 2 ^ 63 := hwf.2.2.2.2
  have htt : t = mkOffsetsTable f.numBatches.toNat (f.diskRecords ++ [synthRec f]) := by
    rw [hTable] at ht
    exact Option.some.inj ht.symm
  subst htt
  set T := mkOffsetsTable f.numBatches.toNat (f.diskRecords ++ [synthRec f]) with hT
  constructor
  · intro i hi
    have hil : i < f.diskRecords.length := by omega
    have ha : T.getOffset i = some f.diskRecords[i].offset := by
      unfold OffsetsTable.getOffset
      rw [loaded_get_lt f hlen hi, List.getElem?_eq_getElem hil]
      rfl
    obtain ⟨ha0, ha1, -, -, -, -⟩ := hWFr _ (List.getElem_mem hil)
    by_cases hlast : i + 1 < f.numBatches.toNat
    · have hil2 : i + 1 < f.diskRecords.length := by omega
      have hb : T.getOffset (i + 1) = some f.diskRecords[i + 1].offset := by
        unfold OffsetsTable.getOffset
        rw [loaded_get_lt f hlen hlast, List.getElem?_eq_getElem hil2]
        rfl
      obtain ⟨hb0, hb1, -, -, -, -⟩ := hWFr _ (List.getElem_mem hil2)
      have hab : f.diskRecords[i].offset ≤ f.diskRecords[i + 1].offset := by
        have := List.chain'_iff_get.mp hmono i (by omega)
        simpa using this
      refine ⟨_, _, ha, hb, hab, ?_⟩
      unfold OffsetsTable.getChunkSize
      rw [loaded_get_lt f hlen hlast, List.getElem?_eq_getElem hil2,
        loaded_get_lt f hlen hi, List.getElem?_eq_getElem hil]
      show some (usize (f.diskRecords[i + 1].offset - f.diskRecords[i].offset)) = _
      congr 1
      unfold usize
      rw [Int.emod_eq_of_lt (by omega) (by omega)]
    · have hieq : i + 1 = f.numBatches.toNat := by omega
      have hb : T.getOffset (i + 1) = some ((f.fileSize : Nat) : Int) := by
        unfold OffsetsTable.getOffset
        rw [hieq, loaded_get_last f hlen]
        rfl
      have hpay := hOffPay _ (List.getElem_mem hil)
      have hps : (f.payload.length : Int) ≤ ((f.fileSize : Nat) : Int) := by
        unfold BinFile.fileSize
        push_cast
        omega
      have hfs2 : ((f.fileSize : Nat) : Int) < 2 ^ 63 := by exact_mod_cast hFS
      refine ⟨_, _, ha, hb, by omega, ?_⟩
      unfold OffsetsTable.getChunkSize
      rw [hieq, loaded_get_last f hlen, loaded_get_lt f hlen hi,
        List.getElem?_eq_getElem hil]
      show some (usize ((synthRec f).offset - f.diskRecords[i].offset)) = _
      congr 1
      unfold usize synthRec
      rw [Int.emod_eq_of_lt (by simp only []; omega) (by simp only []; omega)]
  · rcases hL : f.diskRecords with - | ⟨r, rs⟩
    · rw [hL] at hlen
      simp at hlen
      have hstart : T.startIndex = [] := by
        show (mkOffsetsTable f.numBatches.toNat (f.diskRecords ++ [synthRec f])).startIndex = []
        simp [mkOffsetsTable, ← hlen]
      rw [hstart]
      exact List.chain'_nil
    · have hstart : T.startIndex
          = 0 :: startIndexLoop (rs.map (fun x => x.numSequences)) 0 := by
        show (mkOffsetsTable f.numBatches.toNat (f.diskRecords ++ [synthRec f])).startIndex = _
        rw [← hlen, hL]
        exact mk_startIndex_cons r rs (synthRec f)
      rw [hstart]
      apply startIndexLoop_chain
      · intro c hc
        obtain ⟨x, hx, hxc⟩ := List.mem_map.mp hc
        have hxmem : x ∈ f.diskRecords := by
          rw [hL]
          exact List.mem_cons_of_mem r hx
        rw [← hxc]
        exact (hWFr x hxmem).2.2.1
      · have hrmem : r ∈ f.diskRecords := by
          rw [hL]
          exact List.mem_cons_self r rs
        have hr0 : 0 ≤ r.numSequences := (hWFr r hrmem).2.2.1
        rw [hL] at hsum
        simp only [List.map_cons, List.sum_cons] at hsum
        push_cast
        omega

/-- Witness for C9 on the concrete `exampleFile`, whose offsets 0 < 5 are
increasing and whose counts are small. -/
theorem c9_offsets_invariants_witness :
    (∀ i, i < exampleFile.numBatches.toNat → ∃ a b : Int,
        exampleTable.getOffset i = some a ∧ exampleTable.getOffset (i + 1) = some b ∧
        a ≤ b ∧ exampleTable.getChunkSize i = some ((b - a).toNat)) ∧
    List.Chain' (· ≤ ·) exampleTable.startIndex :=
  c9_offsets_invariants exampleFile exampleState exampleTable (by decide)
    (by simp [exampleFile, List.chain'_cons]) (by decide) rfl rfl

end CNTKBinary
